import Mathlib

/-!
# Verification of the caseAdapta documentation crawler / endpoint extractor

Shallow embedding of `src/api_docs_agent.py`: the heuristic endpoint
extractor (`extract_api_endpoints`), the crawl scheduler
(`crawl_documentation`), the endpoint deduplicator, the URL helpers used by
`api_docs_node`, and the description synthesizer (`analyze_endpoints`).

Strings are modelled as Lean `String` / `List Char`; Python regex scans are
modelled as explicit left-to-right character scanners that reproduce the
leftmost, non-overlapping semantics of `re.finditer` / `re.findall` on the
concrete fixed patterns of the source (all of which are backtracking-free
up to maximal-munch equivalence, as each greedy class is disjoint from the
character that must follow it).
-/

namespace CaseAdapta

/-- Characters the Python `\s` class matches (ASCII part, which is all the
source ever feeds it). -/
def isSpaceChar (c : Char) : Bool :=
  c = ' ' || c = '\t' || c = '\n' || c = '\r' || c = Char.ofNat 11 || c = Char.ofNat 12

/-- Python `\w` (ASCII part): letters, digits, underscore. -/
def isWordChar (c : Char) : Bool :=
  c.isAlpha || c.isDigit || c = '_'

/-- The backtick character, used by pattern 3 of the extractor. -/
def btick : Char := Char.ofNat 96

/-- Left brace character. -/
def lbrace : Char := Char.ofNat 123

/-- Right brace character. -/
def rbrace : Char := Char.ofNat 125

/-- ASCII lowercase of a whole character list (Python `str.lower`). -/
def lowerL (l : List Char) : List Char := l.map Char.toLower

/-- ASCII uppercase of a whole character list (Python `str.upper`). -/
def upperL (l : List Char) : List Char := l.map Char.toUpper

/-- Python `pat in s` substring containment. -/
def hasSubstr (pat : List Char) : List Char → Bool
  | [] => pat.isPrefixOf []
  | c :: cs => pat.isPrefixOf (c :: cs) || hasSubstr pat cs

/-- Python `str.strip()`: drop leading and trailing whitespace. -/
def stripL (l : List Char) : List Char :=
  ((l.dropWhile isSpaceChar).reverse.dropWhile isSpaceChar).reverse

/-- First whitespace-separated word (`s.split()[0]` for `s` that has a
non-whitespace character; the source only applies it to such strings). -/
def firstWord (l : List Char) : List Char :=
  (l.dropWhile isSpaceChar).takeWhile (fun c => !isSpaceChar c)

/-- Case-insensitive literal prefix match; returns the rest of the input on
success.  Models a regex literal under `re.IGNORECASE`. -/
def ciPrefix : List Char → List Char → Option (List Char)
  | [], s => some s
  | _ :: _, [] => none
  | t :: ts, c :: cs => if t.toLower = c.toLower then ciPrefix ts cs else none

/-- Python `content[a:b]` slice on character lists (for already-clamped
`a ≤ b`; `List.take`/`drop` clamp the rest like Python does). -/
def sliceL (l : List Char) (a b : Nat) : List Char :=
  (l.drop a).take (b - a)

/-- Generic model of `re.finditer`: at each position try the matcher (which
is given the absolute position and the remaining suffix, and on success
returns a payload plus the number of characters consumed, always ≥ 1 for
the source's patterns); on success emit the payload and resume after the
match, otherwise advance one character.  `fuel` is initialised to the input
length, which is enough because every step consumes at least one character. -/
def scanLoop (tryAt : Nat → List Char → Option (α × Nat)) :
    Nat → Nat → List Char → List α
  | 0, _, _ => []
  | _ + 1, _, [] => []
  | fuel + 1, pos, c :: cs =>
    match tryAt pos (c :: cs) with
    | some (a, k) => a :: scanLoop tryAt fuel (pos + max k 1) ((c :: cs).drop (max k 1))
    | none => scanLoop tryAt fuel (pos + 1) cs

/-- Run a scanner over a whole character list. -/
def scanAll (tryAt : Nat → List Char → Option (α × Nat)) (l : List Char) : List α :=
  scanLoop tryAt l.length 0 l

/-! ## URL helpers (`urllib.parse` fragments the source relies on) -/

/-- Characters allowed in a URL scheme after the first (Python
`urllib.parse`). -/
def isSchemeChar (c : Char) : Bool :=
  c.isAlpha || c.isDigit || c = '+' || c = '-' || c = '.'

/-- Split `url` into scheme and rest as `urlparse` does: the text before
the first `:` is the scheme when it is a letter followed by scheme
characters; otherwise there is no scheme. -/
def schemeSplit (l : List Char) : Option (List Char × List Char) :=
  let pre := l.takeWhile (· ≠ ':')
  if pre.length < l.length ∧ pre ≠ [] ∧ (pre.headD ' ').isAlpha ∧ pre.all isSchemeChar then
    some (lowerL pre, l.drop (pre.length + 1))
  else none

/-- `urlparse(url).scheme` (lower-cased by Python). -/
def urlScheme (url : String) : String :=
  match schemeSplit url.data with
  | some (s, _) => String.mk s
  | none => ""

/-- `urlparse(url).netloc`: the text between a leading `//` (after the
scheme, if any) and the next `/`, `?` or `#`. -/
def urlNetloc (url : String) : String :=
  let rest := match schemeSplit url.data with
    | some (_, r) => r
    | none => url.data
  match rest with
  | '/' :: '/' :: r =>
      String.mk (r.takeWhile (fun c => c ≠ '/' && c ≠ '?' && c ≠ '#'))
  | _ => ""

/-- `urljoin(base, path)` for a `path` that starts with `/` (the only way
the source uses it): keep the base's scheme and authority and replace the
path. -/
def urljoinAbs (base : String) (path : String) : String :=
  let s := urlScheme base
  let n := urlNetloc base
  (if s ≠ "" then s ++ ":" else "") ++ (if n ≠ "" then "//" ++ n else "") ++ path

/-! ## The endpoint record and the extractor (`extract_api_endpoints`) -/

/-- One extracted endpoint dict:
`{'method': …, 'path': …, 'full_url': …, 'source': …}`. -/
structure Endpoint where
  method : String
  path : String
  full_url : String
  source : String
deriving Repr, DecidableEq

/-- The dedup key `f"{endpoint['method']}:{endpoint['path']}"`. -/
def endpointKey (e : Endpoint) : String := e.method ++ ":" ++ e.path

/-- The seven literal HTTP method tokens of pattern 1, in the source's
alternation order. -/
def methodTokens : List String :=
  ["GET", "POST", "PUT", "DELETE", "PATCH", "HEAD", "OPTIONS"]

/-- Try each method token case-insensitively at the current position; the
tokens are pairwise non-prefix so at most one can match.  Returns the
canonical (upper-case) token and the rest of the input. -/
def tryMethodToken (s : List Char) : Option (String × List Char) :=
  match ciPrefix "GET".data s with
  | some r => some ("GET", r)
  | none => match ciPrefix "POST".data s with
    | some r => some ("POST", r)
    | none => match ciPrefix "PUT".data s with
      | some r => some ("PUT", r)
      | none => match ciPrefix "DELETE".data s with
        | some r => some ("DELETE", r)
        | none => match ciPrefix "PATCH".data s with
          | some r => some ("PATCH", r)
          | none => match ciPrefix "HEAD".data s with
            | some r => some ("HEAD", r)
            | none => match ciPrefix "OPTIONS".data s with
              | some r => some ("OPTIONS", r)
              | none => none

/-- The character class `[^\s\)\<\>"]` shared by patterns 1, 2 and 5. -/
def pathClassOk (c : Char) : Bool :=
  !(isSpaceChar c || c = ')' || c = '<' || c = '>' || c = '"')

/-- Pattern 1 matcher at one position:
`(GET|POST|PUT|DELETE|PATCH|HEAD|OPTIONS)\s+([/][^\s\)\<\>"]+)` with
`re.IGNORECASE`.  Payload: (upper-cased method, raw path group). -/
def tryP1 (_pos : Nat) (s : List Char) : Option ((String × List Char) × Nat) :=
  match tryMethodToken s with
  | none => none
  | some (m, r1) =>
    let ws := r1.takeWhile isSpaceChar
    if ws = [] then none
    else match r1.drop ws.length with
      | '/' :: r2 =>
        let run := r2.takeWhile pathClassOk
        if run = [] then none
        else some ((m, '/' :: run),
          (s.length - r1.length) + ws.length + 1 + run.length)
      | _ => none

/-- The per-match body of pattern 1: strip the characters `) ] } < >`
everywhere in the path (`re.sub(r'[\)\]\}\<\>]', '', path)`), take the
first whitespace-separated word, and keep the record when the path is a
`/`-led string of length > 1. -/
def buildP1 (base : String) : String × List Char → Option Endpoint
  | (m, raw) =>
    let cleaned := raw.filter
      (fun c => !(c = ')' || c = ']' || c = rbrace || c = '<' || c = '>'))
    let path := firstWord cleaned
    if cleaned ≠ [] ∧ path ≠ [] ∧ 1 < path.length ∧ path.headD ' ' = '/' then
      some ⟨m, String.mk path, urljoinAbs base (String.mk path), "method_path"⟩
    else none

/-- All records produced by pattern 1 on `content` (before the shared
key-based dedup). -/
def p1Records (content : List Char) (base : String) : List Endpoint :=
  (scanAll tryP1 content).filterMap (buildP1 base)

/-- The method-from-context chain shared by patterns 2, 3 and 5:
`'POST' in context` / `'PUT'` / `'DELETE'` / `'PATCH'` in that order,
defaulting to `'GET'`; `ctx` is the already upper-cased context slice. -/
def methodFromContext (ctx : List Char) : String :=
  if hasSubstr "POST".data ctx then "POST"
  else if hasSubstr "PUT".data ctx then "PUT"
  else if hasSubstr "DELETE".data ctx then "DELETE"
  else if hasSubstr "PATCH".data ctx then "PATCH"
  else "GET"

/-- `https?://` under `re.IGNORECASE`: returns (consumed, rest).  The two
alternatives are tried with the optional `s` first, matching the greedy
`s?`. -/
def tryHttpPrefix (s : List Char) : Option (Nat × List Char) :=
  match ciPrefix "https://".data s with
  | some r => some (8, r)
  | none => match ciPrefix "http://".data s with
    | some r => some (7, r)
    | none => none

/-- The shared `https?://[^/]+(/CLASS+)` shape of patterns 2 and 4: scheme
prefix, nonempty host of non-`/` characters, then a `/`-led run of the
given class.  Returns the path group and the consumed length. -/
def tryHostPath (cls : Char → Bool) (s : List Char) : Option (List Char × Nat) :=
  match tryHttpPrefix s with
  | none => none
  | some (pre, r) =>
    let host := r.takeWhile (· ≠ '/')
    if host = [] then none
    else match r.drop host.length with
      | '/' :: r2 =>
        let run := r2.takeWhile cls
        if run = [] then none
        else some ('/' :: run, pre + host.length + 1 + run.length)
      | _ => none

/-- Pattern 2 matcher at one position:
`https?://[^/]+(/[^\s\)\<\>"]+)` with `re.IGNORECASE`.
Payload: (group 0 text, path group, match start). -/
def tryP2 (pos : Nat) (s : List Char) : Option ((List Char × List Char × Nat) × Nat) :=
  match tryHostPath pathClassOk s with
  | none => none
  | some (path, k) => some ((s.take k, path, pos), k)

/-- The per-match body of pattern 2: method from the 50 characters before
the match (upper-cased), `full_url` is the matched text itself. -/
def buildP2 (content : List Char) : List Char × List Char × Nat → Option Endpoint
  | (g0, path, pos) =>
    let method := methodFromContext (upperL (sliceL content (pos - 50) pos))
    if path ≠ [] ∧ 1 < path.length then
      some ⟨method, String.mk path, String.mk g0, "full_url"⟩
    else none

/-- All records produced by pattern 2. -/
def p2Records (content : List Char) : List Endpoint :=
  (scanAll tryP2 content).filterMap (buildP2 content)

/-- Pattern 3 matcher at one position: `` `([/][^`]+)` `` (case-sensitive).
Payload: (path group, match start, match end). -/
def tryP3 (pos : Nat) (s : List Char) : Option ((List Char × Nat × Nat) × Nat) :=
  match s with
  | b :: '/' :: r =>
    if b = btick then
      let run := r.takeWhile (· ≠ btick)
      if run = [] then none
      else match r.drop run.length with
        | e :: _ =>
          if e = btick then
            some (('/' :: run, pos, pos + run.length + 3), run.length + 3)
          else none
        | [] => none
    else none
  | _ => none

/-- The per-match body of pattern 3: strip the path group, method from the
±100-character window around the match. -/
def buildP3 (content : List Char) (base : String) :
    List Char × Nat × Nat → Option Endpoint
  | (g1, pos, endPos) =>
    let path := stripL g1
    let ctx := upperL (sliceL content (pos - 100) (min content.length (endPos + 100)))
    let method := methodFromContext ctx
    if path ≠ [] ∧ 1 < path.length ∧ path.headD ' ' = '/' then
      some ⟨method, String.mk path, urljoinAbs base (String.mk path), "code_block"⟩
    else none

/-- All records produced by pattern 3. -/
def p3Records (content : List Char) (base : String) : List Endpoint :=
  (scanAll tryP3 content).filterMap (buildP3 content base)

/-- The character class `[^\s"\']` of pattern 4's path group. -/
def p4ClassOk (c : Char) : Bool :=
  !(isSpaceChar c || c = '"' || c = '\'')

/-- The optional `(?:-X\s+(\w+)\s+)?` group of pattern 4: on success
returns the `\w+` group, the rest of the input, and the consumed length. -/
def tryP4opt (r2 : List Char) : Option (List Char × List Char × Nat) :=
  match ciPrefix "-x".data r2 with
  | none => none
  | some r3 =>
    let ws2 := r3.takeWhile isSpaceChar
    if ws2 = [] then none
    else
      let r4 := r3.drop ws2.length
      let w := r4.takeWhile isWordChar
      if w = [] then none
      else
        let r5 := r4.drop w.length
        let ws3 := r5.takeWhile isSpaceChar
        if ws3 = [] then none
        else some (w, r5.drop ws3.length, 2 + ws2.length + w.length + ws3.length)

/-- The final `https?://[^/]+(/[^\s"\']+)` part of pattern 4, wrapped with
the already-matched method group and consumed-prefix length. -/
def tryP4host (w : Option (List Char)) (kPre : Nat) (r7 : List Char) :
    Option ((Option (List Char) × List Char) × Nat) :=
  match tryHostPath p4ClassOk r7 with
  | none => none
  | some (path, k) => some ((w, path), kPre + k)

/-- The optional-quote (`["\']?`) step of pattern 4 followed by the URL
part.  If a quote is consumed the URL must follow it; regex backtracking to
the unquoted reading cannot succeed because the quote character is not
`h`. -/
def tryP4tail (w : Option (List Char)) (kPre : Nat) (r6 : List Char) :
    Option ((Option (List Char) × List Char) × Nat) :=
  match r6 with
  | c :: rest =>
    if c = '"' || c = '\'' then tryP4host w (kPre + 1) rest
    else tryP4host w kPre (c :: rest)
  | [] => tryP4host w kPre []

/-- Pattern 4 matcher at one position:
`curl\s+(?:-X\s+(\w+)\s+)?["\']?https?://[^/]+(/[^\s"\']+)` with
`re.IGNORECASE`.  A partial match of the optional `-X` group falls back to
not taking the group, which then fails on the leading `-`.  Payload:
(optional method group, path group). -/
def tryP4 (_pos : Nat) (s : List Char) : Option ((Option (List Char) × List Char) × Nat) :=
  match ciPrefix "curl".data s with
  | none => none
  | some r1 =>
    let ws1 := r1.takeWhile isSpaceChar
    if ws1 = [] then none
    else
      let r2 := r1.drop ws1.length
      match tryP4opt r2 with
      | some (w, r6, kOpt) => tryP4tail (some w) (4 + ws1.length + kOpt) r6
      | none => tryP4tail none (4 + ws1.length) r2

/-- The per-match body of pattern 4: method is the upper-cased `-X` group
when present, else `GET`; the path group is stripped. -/
def buildP4 (base : String) : Option (List Char) × List Char → Option Endpoint
  | (mGroup, g2) =>
    let method := match mGroup with
      | some w => String.mk (upperL w)
      | none => "GET"
    let path := stripL g2
    if path ≠ [] ∧ 1 < path.length then
      some ⟨method, String.mk path, urljoinAbs base (String.mk path), "curl_command"⟩
    else none

/-- All records produced by pattern 4. -/
def p4Records (content : List Char) (base : String) : List Endpoint :=
  (scanAll tryP4 content).filterMap (buildP4 base)

/-- The `/v\d+/…` alternative of pattern 5
(`(/v\d+/[^\s\)\<\>"]+|/api/[^\s\)\<\>"]+)` with `re.IGNORECASE`).
Payload: (group text with original casing, match start). -/
def tryP5v (pos : Nat) (s : List Char) : Option ((List Char × Nat) × Nat) :=
  match s with
  | '/' :: c :: r =>
    if c.toLower = 'v' then
      let ds := r.takeWhile Char.isDigit
      if ds = [] then none
      else match r.drop ds.length with
        | '/' :: r2 =>
          let run := r2.takeWhile pathClassOk
          if run = [] then none
          else some ((('/' :: c :: ds) ++ '/' :: run, pos), 2 + ds.length + 1 + run.length)
        | _ => none
    else none
  | _ => none

/-- The `/api/…` alternative of pattern 5. -/
def tryP5a (pos : Nat) (s : List Char) : Option ((List Char × Nat) × Nat) :=
  match s with
  | '/' :: rest2 =>
    match ciPrefix "api/".data rest2 with
    | none => none
    | some r =>
      let run := r.takeWhile pathClassOk
      if run = [] then none
      else some (('/' :: (rest2.take 4 ++ run), pos), 5 + run.length)
  | _ => none

/-- Pattern 5's two alternatives in the source's order. -/
def tryP5 (pos : Nat) (s : List Char) : Option ((List Char × Nat) × Nat) :=
  match tryP5v pos s with
  | some x => some x
  | none => tryP5a pos s

/-- The per-match body of pattern 5: strip the group, method from the 100
characters before the match. -/
def buildP5 (content : List Char) (base : String) : List Char × Nat → Option Endpoint
  | (g1, pos) =>
    let path := stripL g1
    let method := methodFromContext (upperL (sliceL content (pos - 100) pos))
    if path ≠ [] ∧ 1 < path.length then
      some ⟨method, String.mk path, urljoinAbs base (String.mk path), "api_path_pattern"⟩
    else none

/-- All records produced by pattern 5. -/
def p5Records (content : List Char) (base : String) : List Endpoint :=
  (scanAll tryP5 content).filterMap (buildP5 content base)

/-- First-seen key-based dedup with an accumulating seen-key set.  Models
both the `found_endpoints` set inside `extract_api_endpoints` and the
`unique_endpoints` dict of `crawl_documentation` (a Python dict preserves
insertion order, so its value list is in first-seen order). -/
def dedupGo (seen : List String) : List Endpoint → List Endpoint
  | [] => []
  | e :: rest =>
    if seen.contains (endpointKey e) then dedupGo seen rest
    else e :: dedupGo (endpointKey e :: seen) rest

/-- The five matchers' raw outputs in source order, before key dedup. -/
def extractCandidates (content : List Char) (base : String) : List Endpoint :=
  p1Records content base ++ p2Records content ++ p3Records content base ++
    p4Records content base ++ p5Records content base

/-- `extract_api_endpoints(content, base_url)`: run the five matchers in
order and keep the first record for each `method:path` key. -/
def extract_api_endpoints (content : String) (base_url : String) : List Endpoint :=
  dedupGo [] (extractCandidates content.data base_url)

/-! ## The fetch boundary (`scrape_web_page_with_links`) -/

/-- What the network/parse layer below `scrape_web_page_with_links` gives
back for one URL: either an exception (with its message) from the HTTP
client, or the parsed page text together with the absolute URLs of the
page's `<a href>` links (after `urljoin`, before the same-domain filter).
The HTTP client, BeautifulSoup and `urljoin` are external collaborators;
this is the boundary the crawler code observes. -/
inductive FetchOutcome where
  | fail (msg : String)
  | ok (content : String) (rawLinks : List String)

/-- A fetch oracle for one crawl invocation. -/
def Fetcher : Type := String → FetchOutcome

/-- `content[:n]` on a Lean string (character slice like Python). -/
def strTake (s : String) (n : Nat) : String := String.mk (s.data.take n)

/-- `content.startswith("Error")`. -/
def strStartsWithError (s : String) : Bool := "Error".data.isPrefixOf s.data

/-- First-occurrence dedup of a string list with an accumulating seen set. -/
def dedupStrGo (seen : List String) : List String → List String
  | [] => []
  | s :: rest =>
    if seen.contains s then dedupStrGo seen rest
    else s :: dedupStrGo (s :: seen) rest

/-- First-occurrence dedup of a string list (stands in for Python's
`list(set(...))`, whose order is unspecified). -/
def dedupStr (l : List String) : List String := dedupStrGo [] l

/-- `scrape_web_page_with_links(url)`: on a fetch exception return the
`"Error fetching page: …"` marker with no links; on success return the page
text and the page's links restricted to the fetched page's own netloc
(Python then returns `list(set(links))`, whose order is unspecified; no
claim in scope depends on link order). -/
def scrapeModel (f : Fetcher) (url : String) : String × List String :=
  match f url with
  | .fail msg => ("Error fetching page: " ++ msg, [])
  | .ok content rawLinks =>
      (content, dedupStr (rawLinks.filter (fun l => urlNetloc l == urlNetloc url)))

/-! ## The crawl scheduler (`crawl_documentation`) -/

/-- One entry of `pages_crawled`. -/
structure PageInfo where
  url : String
  depth : Nat
  content_length : Nat
deriving Repr, DecidableEq

/-- The loop state of `crawl_documentation`, plus a `fetched` trace
recording each URL passed to the scraper, in order (the source logs
exactly this with its "Crawling (depth …)" print). -/
structure CrawlState where
  queue : List (String × Nat)
  visited : List String
  pages_crawled : List PageInfo
  all_endpoints : List Endpoint
  corpus_snippets : List String
  fetched : List String
deriving Repr, DecidableEq

/-- The result dict of `crawl_documentation`. -/
structure CrawlResult where
  endpoints : List Endpoint
  pages_crawled : List PageInfo
  total_endpoints : Nat
  docs_corpus : String
  fetched : List String
deriving Repr, DecidableEq

/-- The documentation keywords of the enqueue filter. -/
def docKeywords : List String :=
  ["api", "endpoint", "docs", "reference", "rest", "documentation"]

/-- `any(keyword in link.lower() for keyword in [...])`. -/
def keywordHit (link : String) : Bool :=
  docKeywords.any (fun kw => hasSubstr kw.data (lowerL link.data))

/-- The link-enqueue loop: append `(link, depth+1)` when the link is not
visited, not already queued, and either shares the seed's netloc or
contains a documentation keyword.  The queue is threaded because each
append is visible to the later membership checks. -/
def enqueueAll (start_url : String) (visited : List String) (newDepth : Nat) :
    List (String × Nat) → List String → List (String × Nat)
  | q, [] => q
  | q, link :: rest =>
    if (!visited.contains link) && !(q.any (fun p => p.1 == link)) &&
        ((urlNetloc link == urlNetloc start_url) || keywordHit link) then
      enqueueAll start_url visited newDepth (q ++ [(link, newDepth)]) rest
    else enqueueAll start_url visited newDepth q rest

/-- The body of one processed (non-skipped) URL: mark visited, scrape, on
good content record the page / snippet / endpoints, and enqueue links when
`depth < max_depth`.  "Good content" is the source's
`content and not content.startswith("Error")`. -/
def processUrl (f : Fetcher) (start_url : String) (max_depth : Nat)
    (st : CrawlState) (current : String) (depth : Nat) : CrawlState :=
  let res := scrapeModel f current
  let st1 : CrawlState := { st with visited := current :: st.visited,
                                    fetched := st.fetched ++ [current] }
  let st2 := if res.1 ≠ "" ∧ strStartsWithError res.1 = false then
      { st1 with
        pages_crawled := st1.pages_crawled ++ [⟨current, depth, res.1.length⟩],
        corpus_snippets := st1.corpus_snippets ++ [strTake res.1 8000],
        all_endpoints := st1.all_endpoints ++ extract_api_endpoints res.1 current }
    else st1
  if depth < max_depth then
    { st2 with queue := enqueueAll start_url st2.visited (depth + 1) st2.queue res.2 }
  else st2

/-- The `while queue and len(pages_crawled) < max_pages` loop, fuel-indexed
(the Python loop need not terminate for adversarial fetchers, so the model
exposes the state after at most `fuel` iterations; every claim proved below
holds for every fuel). -/
def crawlLoop (f : Fetcher) (start_url : String) (max_depth max_pages : Nat) :
    Nat → CrawlState → CrawlState
  | 0, st => st
  | fuel + 1, st =>
    if max_pages ≤ st.pages_crawled.length then st
    else match st.queue with
      | [] => st
      | (current, depth) :: rest =>
        if st.visited.contains current then
          crawlLoop f start_url max_depth max_pages fuel { st with queue := rest }
        else if max_depth < depth then
          crawlLoop f start_url max_depth max_pages fuel { st with queue := rest }
        else
          crawlLoop f start_url max_depth max_pages fuel
            (processUrl f start_url max_depth { st with queue := rest } current depth)

/-- The initial loop state: frontier `[(start_url, 0)]`, everything else
empty (the entry points pass no pre-populated `visited`). -/
def initState (start_url : String) : CrawlState :=
  ⟨[(start_url, 0)], [], [], [], [], []⟩

/-- `crawl_documentation(start_url, max_depth, max_pages)`: run the loop,
dedup the accumulated endpoints by `method:path` key (first seen wins), and
assemble the result dict, with the corpus capped at 25 snippets. -/
def crawl_documentation (f : Fetcher) (start_url : String)
    (max_depth max_pages fuel : Nat) : CrawlResult :=
  let st := crawlLoop f start_url max_depth max_pages fuel (initState start_url)
  let uniq := dedupGo [] st.all_endpoints
  { endpoints := uniq,
    pages_crawled := st.pages_crawled,
    total_endpoints := uniq.length,
    docs_corpus := String.intercalate "\n\n" (st.corpus_snippets.take 25),
    fetched := st.fetched }

/-! ## The entry node (`api_docs_node`) -/

/-- The URL character class of `extract_url_from_message`'s pattern
`https?://[^\s<>"{}|\\^`\[\]]+`. -/
def msgUrlCharOk (c : Char) : Bool :=
  !(isSpaceChar c || c = '<' || c = '>' || c = '"' || c = lbrace || c = rbrace ||
    c = '|' || c = '\\' || c = '^' || c = btick || c = '[' || c = ']')

/-- The matcher of `extract_url_from_message` at one position
(case-sensitive `https?://` then one or more URL characters). -/
def tryMsgUrl (_pos : Nat) (s : List Char) : Option (List Char × Nat) :=
  let pre : Option Nat :=
    if "https://".data.isPrefixOf s then some 8
    else if "http://".data.isPrefixOf s then some 7
    else none
  match pre with
  | none => none
  | some k =>
    let run := (s.drop k).takeWhile msgUrlCharOk
    if run.isEmpty then none
    else some (s.take (k + run.length), k + run.length)

/-- `extract_url_from_message(message)`: first regex match or `None`. -/
def extract_url_from_message (message : String) : Option String :=
  match scanAll tryMsgUrl message.data with
  | [] => none
  | u :: _ => some (String.mk u)

/-- The three outcomes of `api_docs_node` for a human message: no URL in
the message, an extracted URL rejected as invalid (missing scheme or
netloc), or a crawl actually launched on the URL. -/
inductive NodeOutcome where
  | noUrl
  | invalidUrl (url : String)
  | runCrawl (url : String)
deriving Repr, DecidableEq

/-- The control flow of `api_docs_node` on a human message's text: extract
a URL, validate `parsed.scheme` / `parsed.netloc`, and only in the valid
case run `crawl_documentation_sync`. -/
def api_docs_decision (message : String) : NodeOutcome :=
  match extract_url_from_message message with
  | none => .noUrl
  | some url =>
    if urlScheme url = "" ∨ urlNetloc url = "" then .invalidUrl url
    else .runCrawl url

/-! ## The description synthesizer (`analyze_endpoints`) -/

/-- Collapse every whitespace run to a single space
(`re.sub(r"\s+", " ", desc)`); the flag remembers whether the previous
character was part of a whitespace run. -/
def squeezeAux (lastSpace : Bool) : List Char → List Char
  | [] => []
  | c :: cs =>
    if isSpaceChar c then
      if lastSpace then squeezeAux true cs else ' ' :: squeezeAux true cs
    else c :: squeezeAux false cs

/-- `re.sub(r"\s+", " ", desc)`. -/
def squeezeWs (l : List Char) : List Char := squeezeAux false l

/-- Is the head of the list a whitespace character? -/
def headIsSpace : List Char → Bool
  | w :: _ => isSpaceChar w
  | [] => false

/-- `re.split(r"(?<=[.!?])\s+", window)`: cut after each `.`/`!`/`?` that
is followed by whitespace, consuming the whole whitespace run as the
separator.  `acc` is the current piece (reversed); `skipping` is true while
inside a separator's whitespace run. -/
def splitSentAux : List Char → Bool → List Char → List (List Char)
  | acc, _, [] => [acc.reverse]
  | acc, skipping, c :: cs =>
    if skipping && isSpaceChar c then splitSentAux acc true cs
    else if (c = '.' || c = '!' || c = '?') && headIsSpace cs then
      (c :: acc).reverse :: splitSentAux [] true cs
    else splitSentAux (c :: acc) false cs

/-- `re.split(r"(?<=[.!?])\s+", window)`. -/
def splitSentences (l : List Char) : List (List Char) :=
  splitSentAux [] false l

/-- Index of the first case-insensitive occurrence of `pat`
(`re.search(re.escape(pat), corpus, re.IGNORECASE)`; an empty pattern
matches at index 0, like Python's). -/
def findSubIdxCI (pat : List Char) : List Char → Option Nat
  | [] => if (lowerL pat).isPrefixOf [] then some 0 else none
  | c :: cs =>
    if (lowerL pat).isPrefixOf (lowerL (c :: cs)) then some 0
    else (findSubIdxCI pat cs).map (· + 1)

/-- `path.split("/")[-1]`: the text after the last `/` (the whole string
when there is no `/`, the empty string when the path ends in `/`). -/
def lastSeg (l : List Char) : List Char :=
  (l.reverse.takeWhile (· ≠ '/')).reverse

/-- `re.findall(r"\{([^}]+)\}", path)` matcher at one position. -/
def tryBraceParam (_pos : Nat) (s : List Char) : Option (List Char × Nat) :=
  match s with
  | c :: r =>
    if c = lbrace then
      let run := r.takeWhile (· ≠ rbrace)
      if run.isEmpty then none
      else match r.drop run.length with
        | e :: _ => if e = rbrace then some (run, run.length + 2) else none
        | [] => none
    else none
  | [] => none

/-- `re.findall(r":([A-Za-z0-9_]+)", path)` matcher at one position. -/
def tryColonParam (_pos : Nat) (s : List Char) : Option (List Char × Nat) :=
  match s with
  | ':' :: r =>
    let run := r.takeWhile isWordChar
    if run.isEmpty then none else some (run, run.length + 1)
  | _ => none

/-- The sentence-picking loop: remember the latest sentence containing the
path tail (case-insensitively) or the method (against the upper-cased
sentence), stopping as soon as such a sentence is longer than 20 characters
once stripped. -/
def pickSentence (tailSeg method : List Char) :
    List (List Char) → List Char → List Char
  | [], picked => picked
  | s :: rest, picked =>
    if hasSubstr (lowerL tailSeg) (lowerL s) || hasSubstr method (upperL s) then
      let p := stripL s
      if p.length > 20 then p else pickSentence tailSeg method rest p
    else pickSentence tailSeg method rest picked

/-- One element of `analyze_endpoints`' output list. -/
structure Analysis where
  method : String
  path : String
  full_url : String
  description : String
  params : List String
deriving Repr, DecidableEq

/-- The method→verb map of the generic fallback description, with its
`"operates on"` default. -/
def methodAction (method : String) : String :=
  if method = "GET" then "retrieves"
  else if method = "POST" then "creates"
  else if method = "PUT" then "replaces"
  else if method = "PATCH" then "updates"
  else if method = "DELETE" then "deletes"
  else "operates on"

/-- The `param_hint` sentence (empty when there are no params). -/
def paramHint (params : List String) : String :=
  if params.isEmpty then ""
  else "Path params: " ++ String.intercalate ", " params ++
    ". Replace each placeholder with the corresponding value (e.g., IDs, keys)."

/-- The generic fallback description
`f"{method} {path} {action} the resource. {param_hint}".strip()` — note the
source applies no length cap here. -/
def genericDesc (method path : String) (params : List String) : String :=
  String.mk (stripL (method.data ++ [' '] ++ path.data ++ [' '] ++
    (methodAction method).data ++ " the resource. ".data ++ (paramHint params).data))

/-- The body of `analyze_endpoints` for one endpoint dict. -/
def analyzeOne (corpus : List Char) (ep : Endpoint) : Analysis :=
  let path := ep.path.data
  let params :=
    let ps := (scanAll tryBraceParam path).map String.mk
    if ps.isEmpty then (scanAll tryColonParam path).map String.mk else ps
  let tailSeg := lastSeg path
  let mpos := match findSubIdxCI path corpus with
    | some i => some i
    | none => findSubIdxCI tailSeg corpus
  let desc0 := match mpos with
    | none => []
    | some i =>
      let window := sliceL corpus (i - 300) (min corpus.length (i + 500))
      let picked := pickSentence tailSeg ep.method.data (splitSentences window) []
      if picked.isEmpty then stripL window else picked
  let desc1 := if desc0.isEmpty then [] else
    let d := stripL (squeezeWs desc0)
    if d.length > 280 then d.take 277 ++ "...".data else d
  let desc := if desc1.isEmpty then genericDesc ep.method ep.path params
              else String.mk desc1
  ⟨ep.method, ep.path, ep.full_url, desc, params⟩

/-- `analyze_endpoints(endpoints, docs_corpus)`: one analysis per endpoint,
in input order. -/
def analyze_endpoints (endpoints : List Endpoint) (docs_corpus : String) :
    List Analysis :=
  endpoints.map (analyzeOne docs_corpus.data)

/-! # Helper lemmas -/

/-- Every payload a scan emits was produced by the position matcher. -/
theorem mem_scanLoop {α : Type} {tryAt : Nat → List Char → Option (α × Nat)}
    {P : α → Prop} (h : ∀ pos s a k, tryAt pos s = some (a, k) → P a) :
    ∀ (fuel pos : Nat) (l : List Char) (a : α), a ∈ scanLoop tryAt fuel pos l → P a := by
  intro fuel
  induction fuel with
  | zero => intro pos l a ha; simp [scanLoop] at ha
  | succ n ih =>
    intro pos l a ha
    cases l with
    | nil => simp [scanLoop] at ha
    | cons c cs =>
      rw [scanLoop] at ha
      cases htry : tryAt pos (c :: cs) with
      | none => rw [htry] at ha; exact ih _ _ _ ha
      | some x =>
        obtain ⟨a', k⟩ := x
        rw [htry] at ha
        simp only [List.mem_cons] at ha
        rcases ha with rfl | ha
        · exact h _ _ _ _ htry
        · exact ih _ _ _ ha

/-- `mem_scanLoop` specialised to a whole-input scan. -/
theorem mem_scanAll {α : Type} {tryAt : Nat → List Char → Option (α × Nat)}
    {P : α → Prop} (h : ∀ pos s a k, tryAt pos s = some (a, k) → P a)
    {l : List Char} {a : α} (ha : a ∈ scanAll tryAt l) : P a :=
  mem_scanLoop h _ _ _ _ ha

/-- `List.contains` agrees with membership for strings. -/
theorem containsStr_iff (l : List String) (s : String) :
    l.contains s = true ↔ s ∈ l :=
  ⟨List.mem_of_elem_eq_true, List.elem_eq_true_of_mem⟩

/-- Key-based dedup returns a sublist of its input (so output order is
first-seen order and every output element is an input element). -/
theorem dedupGo_sublist (seen : List String) (l : List Endpoint) :
    (dedupGo seen l).Sublist l := by
  induction l generalizing seen with
  | nil => simp [dedupGo]
  | cons e rest ih =>
    rw [dedupGo]
    split
    · exact (ih seen).trans (List.sublist_cons_self e rest)
    · exact (ih (endpointKey e :: seen)).cons₂ e

/-- Key-based dedup never emits a key of the seen set, and emits each key
at most once. -/
theorem dedupGo_keys (seen : List String) (l : List Endpoint) :
    (∀ e ∈ dedupGo seen l, endpointKey e ∉ seen) ∧
      ((dedupGo seen l).map endpointKey).Nodup := by
  induction l generalizing seen with
  | nil => simp [dedupGo]
  | cons e rest ih =>
    rw [dedupGo]
    split
    · exact ⟨(ih seen).1, (ih seen).2⟩
    · rename_i hseen
      refine ⟨?_, ?_⟩
      · intro e' he'
        rcases List.mem_cons.mp he' with rfl | he'
        · simpa using hseen
        · have := (ih (endpointKey e :: seen)).1 e' he'
          intro hmem
          exact this (List.mem_cons_of_mem _ hmem)
      · rw [List.map_cons, List.nodup_cons]
        refine ⟨?_, (ih (endpointKey e :: seen)).2⟩
        intro hmem
        obtain ⟨e', he', hkey⟩ := List.mem_map.mp hmem
        exact (ih (endpointKey e :: seen)).1 e' he' (hkey ▸ List.mem_cons_self _ _)

/-- Every key of the input is represented in the dedup output (unless it
was already seen). -/
theorem dedupGo_complete (seen : List String) (l : List Endpoint) :
    ∀ e ∈ l, endpointKey e ∈ seen ∨
      ∃ e' ∈ dedupGo seen l, endpointKey e' = endpointKey e := by
  induction l generalizing seen with
  | nil => simp
  | cons hd rest ih =>
    intro e he
    rw [dedupGo]
    rcases List.mem_cons.mp he with rfl | he
    · by_cases hs : seen.contains (endpointKey e)
      · exact Or.inl ((containsStr_iff _ _).mp hs)
      · simp only [hs, if_false]
        exact Or.inr ⟨e, List.mem_cons_self _ _, rfl⟩
    · by_cases hs : seen.contains (endpointKey hd)
      · simp only [hs, if_true]
        exact ih seen e he
      · simp only [hs, if_false]
        rcases ih (endpointKey hd :: seen) e he with hmem | ⟨e', he', hkey⟩
        · rcases List.mem_cons.mp hmem with heq | hmem
          · exact Or.inr ⟨hd, List.mem_cons_self _ _, heq.symm⟩
          · exact Or.inl hmem
        · exact Or.inr ⟨e', List.mem_cons_of_mem _ he', hkey⟩

/-- Every dedup output element is the first input element with its key. -/
theorem dedupGo_first_seen (seen : List String) (l : List Endpoint) :
    ∀ e ∈ dedupGo seen l, endpointKey e ∉ seen ∧
      ∃ i : Fin l.length, l.get i = e ∧
        ∀ j : Fin l.length, (j : Nat) < (i : Nat) →
          endpointKey (l.get j) ≠ endpointKey e := by
  induction l generalizing seen with
  | nil => simp [dedupGo]
  | cons hd rest ih =>
    intro e he
    rw [dedupGo] at he
    by_cases hs : seen.contains (endpointKey hd)
    · rw [if_pos hs] at he
      obtain ⟨hnotseen, i, hget, hfirst⟩ := ih seen e he
      refine ⟨hnotseen, ⟨i.val + 1, by simpa using i.isLt⟩, by simpa using hget, ?_⟩
      intro j hj
      match j with
      | ⟨0, _⟩ =>
        intro hkey
        exact hnotseen (hkey ▸ (containsStr_iff _ _).mp hs)
      | ⟨jv + 1, hjv⟩ =>
        have := hfirst ⟨jv, by simpa using hjv⟩ (by simpa using hj)
        simpa using this
    · rw [if_neg hs] at he
      rcases List.mem_cons.mp he with rfl | he
      · refine ⟨fun hmem => hs ((containsStr_iff _ _).mpr hmem), ⟨0, by simp⟩, by simp, ?_⟩
        intro j hj
        simp at hj
      · obtain ⟨hnotseen, i, hget, hfirst⟩ := ih (endpointKey hd :: seen) e he
        have hne : endpointKey e ≠ endpointKey hd := by
          intro hkey
          exact hnotseen (hkey ▸ List.mem_cons_self _ _)
        refine ⟨fun hmem => hnotseen (List.mem_cons_of_mem _ hmem),
          ⟨i.val + 1, by simpa using i.isLt⟩, by simpa using hget, ?_⟩
        intro j hj
        match j with
        | ⟨0, _⟩ => simpa using fun h => hne h.symm
        | ⟨jv + 1, hjv⟩ =>
          have := hfirst ⟨jv, by simpa using hjv⟩ (by simpa using hj)
          simpa using this

/-- A list whose strip is empty is all whitespace. -/
theorem stripL_eq_nil {l : List Char} (h : stripL l = []) :
    ∀ c ∈ l, isSpaceChar c = true := by
  intro c hc
  by_contra hns
  have hns' : isSpaceChar c = false := by
    cases h' : isSpaceChar c
    · rfl
    · exact absurd h' hns
  unfold stripL at h
  have h1 : (l.dropWhile isSpaceChar).reverse.dropWhile isSpaceChar = [] :=
    List.reverse_eq_nil_iff.mp h
  have h2 : ∀ x ∈ (l.dropWhile isSpaceChar).reverse, isSpaceChar x = true :=
    List.dropWhile_eq_nil_iff.mp h1
  have hcmem : c ∈ l.dropWhile isSpaceChar := by
    clear h h1 h2
    induction l with
    | nil => simp at hc
    | cons d ds ih =>
      rcases List.mem_cons.mp hc with rfl | hc
      · rw [List.dropWhile_cons, hns']
        simp
      · rw [List.dropWhile_cons]
        split
        · exact ih hc
        · exact List.mem_cons_of_mem _ (by exact hc)
  have := h2 c (List.mem_reverse.mpr hcmem)
  rw [hns'] at this
  exact Bool.false_ne_true this

/-- A nonempty strip of a list headed by a non-space character keeps that
head. -/
theorem stripL_head {c : Char} {l : List Char} (hc : isSpaceChar c = false)
    (hne : stripL (c :: l) ≠ []) : (stripL (c :: l)).headD ' ' = c := by
  unfold stripL at hne ⊢
  rw [List.dropWhile_cons, hc] at hne ⊢
  simp only [Bool.false_eq_true, if_false] at hne ⊢
  have hsuff : ((c :: l).reverse.dropWhile isSpaceChar) <:+ (c :: l).reverse :=
    List.dropWhile_suffix _
  obtain ⟨t, ht⟩ := hsuff
  have hpre : ((c :: l).reverse.dropWhile isSpaceChar).reverse <+: (c :: l) := by
    refine ⟨t.reverse, ?_⟩
    rw [← List.reverse_append, ht, List.reverse_reverse]
  obtain ⟨u, hu⟩ := hpre
  cases hrev : ((c :: l).reverse.dropWhile isSpaceChar).reverse with
  | nil => exact absurd hrev hne
  | cons x xs =>
    rw [hrev] at hu
    have hcx : x = c := by
      have h' := congrArg (fun t => List.headD t ' ') hu
      simpa using h'
    simpa using hcx

/-- Members of `firstWord l` are members of `l`. -/
theorem mem_firstWord {c : Char} {l : List Char} (h : c ∈ firstWord l) : c ∈ l :=
  (List.dropWhile_suffix isSpaceChar).subset ((List.takeWhile_prefix _).subset h)

/-- The method emitted by the token alternation is one of the seven
canonical tokens. -/
theorem tryMethodToken_mem {s : List Char} {m : String} {r : List Char}
    (h : tryMethodToken s = some (m, r)) : m ∈ methodTokens := by
  unfold tryMethodToken at h
  repeat' split at h
  all_goals simp_all [methodTokens]

/-- The shared host-path shape yields a nonempty `/`-led path group. -/
theorem tryHostPath_path {cls : Char → Bool} {s path : List Char} {k : Nat}
    (h : tryHostPath cls s = some (path, k)) :
    ∃ run, path = '/' :: run ∧ run ≠ [] := by
  simp only [tryHostPath] at h
  repeat' split at h
  all_goals try exact Option.noConfusion h
  injection h with h'
  injection h' with h1 h2
  rename_i hrun
  exact ⟨_, h1.symm, hrun⟩

/-- Pattern 2 payloads carry a nonempty `/`-led path group. -/
theorem tryP2_path {pos : Nat} {s g0 path : List Char} {p k : Nat}
    (h : tryP2 pos s = some ((g0, path, p), k)) :
    ∃ run, path = '/' :: run ∧ run ≠ [] := by
  simp only [tryP2] at h
  split at h
  · exact absurd h (by simp)
  · rename_i path' k' heq
    obtain ⟨⟨-, rfl, -⟩, -⟩ := by simpa using h
    exact tryHostPath_path heq

/-- `tryP4host` payloads carry a nonempty `/`-led path group. -/
theorem tryP4host_path {w : Option (List Char)} {kPre : Nat} {r7 : List Char}
    {mg : Option (List Char)} {path : List Char} {k : Nat}
    (h : tryP4host w kPre r7 = some ((mg, path), k)) :
    ∃ run, path = '/' :: run ∧ run ≠ [] := by
  simp only [tryP4host] at h
  split at h
  · exact absurd h (by simp)
  · rename_i path' k' heq
    simp only [Option.some.injEq, Prod.mk.injEq] at h
    exact h.1.2 ▸ tryHostPath_path heq

/-- `tryP4tail` payloads carry a nonempty `/`-led path group. -/
theorem tryP4tail_path {w : Option (List Char)} {kPre : Nat} {r6 : List Char}
    {mg : Option (List Char)} {path : List Char} {k : Nat}
    (h : tryP4tail w kPre r6 = some ((mg, path), k)) :
    ∃ run, path = '/' :: run ∧ run ≠ [] := by
  simp only [tryP4tail] at h
  repeat' split at h
  all_goals exact tryP4host_path h

/-- Pattern 4 payloads carry a nonempty `/`-led path group. -/
theorem tryP4_path {pos : Nat} {s : List Char} {mg : Option (List Char)}
    {path : List Char} {k : Nat}
    (h : tryP4 pos s = some ((mg, path), k)) :
    ∃ run, path = '/' :: run ∧ run ≠ [] := by
  simp only [tryP4] at h
  repeat' split at h
  all_goals try exact absurd h (by simp)
  all_goals exact tryP4tail_path h

/-- Pattern 5 payloads carry a `/`-led group. -/
theorem tryP5_path {pos : Nat} {s g1 : List Char} {p k : Nat}
    (h : tryP5 pos s = some ((g1, p), k)) :
    ∃ t, g1 = '/' :: t := by
  simp only [tryP5] at h
  split at h
  · rename_i x heq
    obtain rfl := Option.some.inj h
    simp only [tryP5v] at heq
    repeat' split at heq
    all_goals simp_all
    exact ⟨_, heq.1.1.symm⟩
  · simp only [tryP5a] at h
    repeat' split at h
    all_goals simp_all
    exact ⟨_, h.1.1.symm⟩

/-- Pattern 1 payloads carry one of the seven canonical method tokens. -/
theorem tryP1_method {pos : Nat} {s : List Char} {m : String} {raw : List Char}
    {k : Nat} (h : tryP1 pos s = some ((m, raw), k)) : m ∈ methodTokens := by
  simp only [tryP1] at h
  split at h
  · exact Option.noConfusion h
  · rename_i tok htok
    obtain ⟨mt, rt⟩ := tok
    repeat' split at h
    all_goals try exact Option.noConfusion h
    all_goals
      injection h with h'
      injection h' with h1 h2
      injection h1 with hm hraw
      exact hm ▸ tryMethodToken_mem htok

/-- Pattern 1 records satisfy the uniform path validity filter, come from
the token alternation, and contain none of the stripped characters. -/
theorem p1Records_spec {content : List Char} {base : String} {e : Endpoint}
    (he : e ∈ p1Records content base) :
    1 < e.path.length ∧ e.path.data.headD ' ' = '/' ∧
      e.method ∈ methodTokens ∧ e.source = "method_path" ∧
      ∀ c ∈ e.path.data,
        c ≠ ')' ∧ c ≠ ']' ∧ c ≠ rbrace ∧ c ≠ '<' ∧ c ≠ '>' := by
  obtain ⟨a, ha, hbuild⟩ := List.mem_filterMap.mp he
  obtain ⟨m, raw⟩ := a
  have hm : m ∈ methodTokens := by
    refine mem_scanAll (P := fun a : String × List Char => a.1 ∈ methodTokens)
      ?_ ha
    intro pos s a k h
    obtain ⟨m', raw'⟩ := a
    exact tryP1_method h
  simp only [buildP1] at hbuild
  split at hbuild
  · rename_i hguard
    obtain rfl := Option.some.inj hbuild
    obtain ⟨hcl, hne, hlen, hhead⟩ := hguard
    refine ⟨by simpa [String.length_mk] using hlen, by simpa using hhead, hm, rfl, ?_⟩
    intro c hc
    have hc' : c ∈ (raw.filter
        (fun c => !(c = ')' || c = ']' || c = rbrace || c = '<' || c = '>'))) :=
      mem_firstWord (by simpa using hc)
    have := List.of_mem_filter hc'
    simp only [Bool.not_eq_true', Bool.or_eq_false_iff, decide_eq_false_iff_not] at this
    tauto
  · exact absurd hbuild (by simp)

/-- Pattern 2 records satisfy the path validity filter and carry the
`full_url` provenance tag. -/
theorem p2Records_spec {content : List Char} {e : Endpoint}
    (he : e ∈ p2Records content) :
    1 < e.path.length ∧ e.path.data.headD ' ' = '/' ∧ e.source = "full_url" := by
  obtain ⟨a, ha, hbuild⟩ := List.mem_filterMap.mp he
  obtain ⟨g0, path, pos⟩ := a
  have hpath : ∃ run, path = '/' :: run ∧ run ≠ [] := by
    refine mem_scanAll (P := fun a : List Char × List Char × Nat =>
      ∃ run, a.2.1 = '/' :: run ∧ run ≠ []) ?_ ha
    intro pos' s' a' k h
    obtain ⟨g0', path', pos''⟩ := a'
    exact tryP2_path h
  obtain ⟨run, rfl, hrun⟩ := hpath
  simp only [buildP2] at hbuild
  split at hbuild
  · rename_i hguard
    obtain rfl := Option.some.inj hbuild
    obtain ⟨hne, hlen⟩ := hguard
    exact ⟨by simpa [String.length_mk] using hlen, by simp, rfl⟩
  · exact Option.noConfusion hbuild

/-- Pattern 3 records satisfy the path validity filter and carry the
`code_block` provenance tag. -/
theorem p3Records_spec {content : List Char} {base : String} {e : Endpoint}
    (he : e ∈ p3Records content base) :
    1 < e.path.length ∧ e.path.data.headD ' ' = '/' ∧ e.source = "code_block" := by
  obtain ⟨a, ha, hbuild⟩ := List.mem_filterMap.mp he
  obtain ⟨g1, pos, endPos⟩ := a
  simp only [buildP3] at hbuild
  split at hbuild
  · rename_i hguard
    obtain rfl := Option.some.inj hbuild
    obtain ⟨hne, hlen, hhead⟩ := hguard
    exact ⟨by simpa [String.length_mk] using hlen, by simpa using hhead, rfl⟩
  · exact Option.noConfusion hbuild

/-- Pattern 4 records satisfy the path validity filter and carry the
`curl_command` provenance tag. -/
theorem p4Records_spec {content : List Char} {base : String} {e : Endpoint}
    (he : e ∈ p4Records content base) :
    1 < e.path.length ∧ e.path.data.headD ' ' = '/' ∧ e.source = "curl_command" := by
  obtain ⟨a, ha, hbuild⟩ := List.mem_filterMap.mp he
  obtain ⟨mg, g2⟩ := a
  have hpath : ∃ run, g2 = '/' :: run ∧ run ≠ [] := by
    refine mem_scanAll (P := fun a : Option (List Char) × List Char =>
      ∃ run, a.2 = '/' :: run ∧ run ≠ []) ?_ ha
    intro pos' s' a' k h
    obtain ⟨mg', g2'⟩ := a'
    exact tryP4_path h
  obtain ⟨run, rfl, hrun⟩ := hpath
  simp only [buildP4] at hbuild
  split at hbuild
  · rename_i hguard
    obtain rfl := Option.some.inj hbuild
    obtain ⟨hne, hlen⟩ := hguard
    exact ⟨by simpa [String.length_mk] using hlen,
      by simpa using stripL_head (by decide) hne, rfl⟩
  · exact Option.noConfusion hbuild

/-- Pattern 5 records satisfy the path validity filter and carry the
`api_path_pattern` provenance tag. -/
theorem p5Records_spec {content : List Char} {base : String} {e : Endpoint}
    (he : e ∈ p5Records content base) :
    1 < e.path.length ∧ e.path.data.headD ' ' = '/' ∧ e.source = "api_path_pattern" := by
  obtain ⟨a, ha, hbuild⟩ := List.mem_filterMap.mp he
  obtain ⟨g1, pos⟩ := a
  have hpath : ∃ t, g1 = '/' :: t := by
    refine mem_scanAll (P := fun a : List Char × Nat =>
      ∃ t, a.1 = '/' :: t) ?_ ha
    intro pos' s' a' k h
    obtain ⟨g1', pos''⟩ := a'
    exact tryP5_path h
  obtain ⟨t, rfl⟩ := hpath
  simp only [buildP5] at hbuild
  split at hbuild
  · rename_i hguard
    obtain rfl := Option.some.inj hbuild
    obtain ⟨hne, hlen⟩ := hguard
    exact ⟨by simpa [String.length_mk] using hlen,
      by simpa using stripL_head (by decide) hne, rfl⟩
  · exact Option.noConfusion hbuild

/-! # Claim theorems -/

/-- C1: for every input text and baseUrl, every endpoint record returned by
the Extractor (`extract_api_endpoints`) has a path that begins with `/` and
has length strictly greater than 1. -/
theorem c1_extract_paths_valid :
    ∀ (content base_url : String) (e : Endpoint),
      e ∈ extract_api_endpoints content base_url →
      1 < e.path.length ∧ e.path.data.headD ' ' = '/' := by
  intro content base e he
  have hc : e ∈ extractCandidates content.data base :=
    (dedupGo_sublist [] _).subset he
  simp only [extractCandidates, List.mem_append] at hc
  rcases hc with (((h1 | h2) | h3) | h4) | h5
  · exact ⟨(p1Records_spec h1).1, (p1Records_spec h1).2.1⟩
  · exact ⟨(p2Records_spec h2).1, (p2Records_spec h2).2.1⟩
  · exact ⟨(p3Records_spec h3).1, (p3Records_spec h3).2.1⟩
  · exact ⟨(p4Records_spec h4).1, (p4Records_spec h4).2.1⟩
  · exact ⟨(p5Records_spec h5).1, (p5Records_spec h5).2.1⟩

/-- C1 witness: the theorem applied to the record the extractor returns on
the spec's Scenario A input. -/
theorem c1_extract_paths_valid_witness :
    1 < (Endpoint.mk "GET" "/v1/users" "https://api.x.com/v1/users"
        "method_path").path.length ∧
      (Endpoint.mk "GET" "/v1/users" "https://api.x.com/v1/users"
        "method_path").path.data.headD ' ' = '/' :=
  c1_extract_paths_valid "GET /v1/users returns a list" "https://api.x.com" _
    (by decide)

/-- C8 counterexample: on `"GET /users/{id}/posts"` the matched path is
`/users/{id}/posts`, whose trailing characters include no bracket, yet the
extractor returns `/users/{id/posts` — the interior `}` was removed, so the
cleanup is not restricted to trailing characters (and the claimed
stripped set is brackets `)]}<>`, not quotes). -/
theorem c8_counterexample :
    extract_api_endpoints "GET /users/\x7bid\x7d/posts" "https://api.x.com" =
      [⟨"GET", "/users/\x7bid/posts", "https://api.x.com/users/\x7bid/posts",
        "method_path"⟩] ∧
      ("/users/\x7bid/posts" : String) ≠ "/users/\x7bid\x7d/posts" :=
  ⟨by decide, by decide⟩

/-- C8 (amended): every record produced by matcher 1 has method equal to
the matched token upper-cased (one of the seven canonical tokens), and a
path equal to the matched path with the characters `) ] } < >` removed
everywhere they occur (not only trailing) — so the output path starts with
`/` and contains none of those characters. -/
theorem c8_method_path_matcher_amended :
    ∀ (content base_url : String) (e : Endpoint),
      e ∈ extract_api_endpoints content base_url → e.source = "method_path" →
      e.method ∈ methodTokens ∧ e.path.data.headD ' ' = '/' ∧
        ∀ c ∈ e.path.data, c ≠ ')' ∧ c ≠ ']' ∧ c ≠ rbrace ∧ c ≠ '<' ∧ c ≠ '>' := by
  intro content base e he hsrc
  have hc : e ∈ extractCandidates content.data base :=
    (dedupGo_sublist [] _).subset he
  simp only [extractCandidates, List.mem_append] at hc
  rcases hc with (((h1 | h2) | h3) | h4) | h5
  · obtain ⟨hlen, hhead, hm, hs, hnb⟩ := p1Records_spec h1
    exact ⟨hm, hhead, hnb⟩
  · exact absurd ((p2Records_spec h2).2.2.symm.trans hsrc) (by decide)
  · exact absurd ((p3Records_spec h3).2.2.symm.trans hsrc) (by decide)
  · exact absurd ((p4Records_spec h4).2.2.symm.trans hsrc) (by decide)
  · exact absurd ((p5Records_spec h5).2.2.symm.trans hsrc) (by decide)

/-- C8 witness: the amended theorem applied to the counterexample input's
record. -/
theorem c8_method_path_matcher_amended_witness :
    (Endpoint.mk "GET" "/users/\x7bid/posts"
        "https://api.x.com/users/\x7bid/posts" "method_path").method ∈
        methodTokens ∧
      (Endpoint.mk "GET" "/users/\x7bid/posts"
        "https://api.x.com/users/\x7bid/posts" "method_path").path.data.headD
          ' ' = '/' ∧
      ∀ c ∈ (Endpoint.mk "GET" "/users/\x7bid/posts"
        "https://api.x.com/users/\x7bid/posts" "method_path").path.data,
        c ≠ ')' ∧ c ≠ ']' ∧ c ≠ rbrace ∧ c ≠ '<' ∧ c ≠ '>' :=
  c8_method_path_matcher_amended "GET /users/\x7bid\x7d/posts"
    "https://api.x.com" _ (by decide) rfl

/-- Splitting at a colon is unambiguous when neither prefix contains a
colon. -/
theorem append_colon_inj : ∀ (a c b d : List Char),
    ':' ∉ a → ':' ∉ c → a ++ ':' :: b = c ++ ':' :: d → a = c ∧ b = d := by
  intro a
  induction a with
  | nil =>
    intro c b d _ hc h
    cases c with
    | nil => simpa using h
    | cons ch cs =>
      simp only [List.nil_append, List.cons_append, List.cons.injEq] at h
      exact absurd (h.1 ▸ List.mem_cons_self ch cs) hc
  | cons ch cs ih =>
    intro c b d ha hc h
    cases c with
    | nil =>
      simp only [List.nil_append, List.cons_append, List.cons.injEq] at h
      exact absurd (h.1 ▸ List.mem_cons_self ch cs) ha
    | cons ch' cs' =>
      simp only [List.cons_append, List.cons.injEq] at h
      obtain ⟨rfl, h2⟩ := h
      have := ih cs' b d (fun hm => ha (List.mem_cons_of_mem _ hm))
        (fun hm => hc (List.mem_cons_of_mem _ hm)) h2
      exact ⟨by rw [this.1], this.2⟩

/-- The string key `method ++ ":" ++ path` determines the (method, path)
pair whenever methods contain no colon (true of every record the extractor
can produce: matcher methods are either canonical tokens, context-inferred
tokens, or `\w+` words, none of which contain `:`). -/
theorem endpointKey_inj {e₁ e₂ : Endpoint}
    (h1 : ':' ∉ e₁.method.data) (h2 : ':' ∉ e₂.method.data)
    (h : endpointKey e₁ = endpointKey e₂) :
    e₁.method = e₂.method ∧ e₁.path = e₂.path := by
  have hd := congrArg String.data h
  simp only [endpointKey, String.data_append] at hd
  have hd' : e₁.method.data ++ ':' :: e₁.path.data =
      e₂.method.data ++ ':' :: e₂.path.data := by
    simpa using hd
  obtain ⟨hm, hp⟩ := append_colon_inj _ _ _ _ h1 h2 hd'
  exact ⟨String.ext hm, String.ext hp⟩

/-- C2: deduplication by the (method, path) key produces an output of size
at most the input size, a subsequence of the input in first-seen order, in
which every string key occurs exactly once and no two records share a
(method, path) pair; every output record is the first input record with its
key, and (for colon-free methods, which is all the code produces) every
input (method, path) pair is represented in the output. -/
theorem c2_dedup_first_seen :
    ∀ l : List Endpoint,
      (dedupGo [] l).length ≤ l.length ∧
      (dedupGo [] l).Sublist l ∧
      ((dedupGo [] l).map endpointKey).Nodup ∧
      ((dedupGo [] l).Pairwise
        (fun a b => ¬(a.method = b.method ∧ a.path = b.path))) ∧
      (∀ e ∈ dedupGo [] l,
        ∃ i : Fin l.length, l.get i = e ∧
          ∀ j : Fin l.length, (j : Nat) < (i : Nat) →
            endpointKey (l.get j) ≠ endpointKey e) ∧
      (∀ e ∈ l, ∃ e' ∈ dedupGo [] l, endpointKey e' = endpointKey e) ∧
      ((∀ e ∈ l, ':' ∉ e.method.data) →
        ∀ e ∈ l, ∃ e' ∈ dedupGo [] l,
          e'.method = e.method ∧ e'.path = e.path) := by
  intro l
  have hsub := dedupGo_sublist [] l
  have hcompl : ∀ e ∈ l, ∃ e' ∈ dedupGo [] l, endpointKey e' = endpointKey e := by
    intro e he
    rcases dedupGo_complete [] l e he with h | h
    · simp at h
    · exact h
  refine ⟨hsub.length_le, hsub, (dedupGo_keys [] l).2, ?_, ?_, hcompl, ?_⟩
  · have hpw := List.pairwise_map.mp (dedupGo_keys [] l).2
    refine hpw.imp ?_
    intro a b hne hcon
    exact hne (by simp [endpointKey, hcon.1, hcon.2])
  · intro e he
    exact (dedupGo_first_seen [] l e he).2
  · intro hm e he
    obtain ⟨e', he', hkey⟩ := hcompl e he
    obtain ⟨heq1, heq2⟩ := endpointKey_inj (hm e' (hsub.subset he')) (hm e he) hkey
    exact ⟨e', he', heq1, heq2⟩

/-- C2 witness: the theorem applied to a concrete two-record list whose
records share the key `GET:/a`; the duplicate pair is represented by the
first-seen record. -/
theorem c2_dedup_first_seen_witness :
    (dedupGo [] [Endpoint.mk "GET" "/a" "u1" "s1",
        Endpoint.mk "GET" "/a" "u2" "s2"]).length ≤ 2 ∧
      ∃ e' ∈ dedupGo [] [Endpoint.mk "GET" "/a" "u1" "s1",
          Endpoint.mk "GET" "/a" "u2" "s2"],
        e'.method = (Endpoint.mk "GET" "/a" "u2" "s2").method ∧
          e'.path = (Endpoint.mk "GET" "/a" "u2" "s2").path :=
  ⟨(c2_dedup_first_seen [Endpoint.mk "GET" "/a" "u1" "s1",
      Endpoint.mk "GET" "/a" "u2" "s2"]).1,
    (c2_dedup_first_seen [Endpoint.mk "GET" "/a" "u1" "s1",
      Endpoint.mk "GET" "/a" "u2" "s2"]).2.2.2.2.2.2 (by decide) _
      (by decide)⟩

/-- Processing a URL prepends it to the visited set. -/
theorem processUrl_visited (f : Fetcher) (su : String) (md : Nat)
    (st : CrawlState) (cur : String) (d : Nat) :
    (processUrl f su md st cur d).visited = cur :: st.visited := by
  simp only [processUrl]
  split <;> split <;> rfl

/-- Processing a URL appends exactly it to the fetch trace. -/
theorem processUrl_fetched (f : Fetcher) (su : String) (md : Nat)
    (st : CrawlState) (cur : String) (d : Nat) :
    (processUrl f su md st cur d).fetched = st.fetched ++ [cur] := by
  simp only [processUrl]
  split <;> split <;> rfl

/-- Processing a URL appends at most one page record, and only when the
scraped content is good. -/
theorem processUrl_pages_mem {f : Fetcher} {su : String} {md : Nat}
    {st : CrawlState} {cur : String} {d : Nat} {p : PageInfo}
    (hp : p ∈ (processUrl f su md st cur d).pages_crawled) :
    p ∈ st.pages_crawled ∨
      (p = ⟨cur, d, (scrapeModel f cur).1.length⟩ ∧
        (scrapeModel f cur).1 ≠ "" ∧
        strStartsWithError (scrapeModel f cur).1 = false) := by
  simp only [processUrl] at hp
  split at hp <;> split at hp <;>
    simp only [List.mem_append, List.mem_singleton] at hp
  · rename_i hok
    rcases hp with h | h
    · exact Or.inl h
    · exact Or.inr ⟨h, hok⟩
  · exact Or.inl hp
  · rename_i hok
    rcases hp with h | h
    · exact Or.inl h
    · exact Or.inr ⟨h, hok⟩
  · exact Or.inl hp

/-- Page-record count grows by at most one per processed URL. -/
theorem processUrl_pages_len (f : Fetcher) (su : String) (md : Nat)
    (st : CrawlState) (cur : String) (d : Nat) :
    (processUrl f su md st cur d).pages_crawled.length ≤
      st.pages_crawled.length + 1 := by
  simp only [processUrl]
  split <;> split <;> simp

/-- On bad content, processing records no page, no snippet and no
endpoints. -/
theorem processUrl_bad {f : Fetcher} {su : String} {md : Nat}
    {st : CrawlState} {cur : String} {d : Nat}
    (h : ¬((scrapeModel f cur).1 ≠ "" ∧
      strStartsWithError (scrapeModel f cur).1 = false)) :
    (processUrl f su md st cur d).pages_crawled = st.pages_crawled ∧
      (processUrl f su md st cur d).all_endpoints = st.all_endpoints ∧
      (processUrl f su md st cur d).corpus_snippets = st.corpus_snippets := by
  simp only [processUrl]
  split <;> exact ⟨rfl, rfl, rfl⟩

/-- Everything in the queue after the enqueue loop was either already
queued or is one of the links, enqueued at the new depth. -/
theorem enqueueAll_mem (su : String) (vis : List String) (nd : Nat) :
    ∀ (links : List String) (q : List (String × Nat)) (x : String × Nat),
      x ∈ enqueueAll su vis nd q links →
      x ∈ q ∨ (x.1 ∈ links ∧ x.2 = nd) := by
  intro links
  induction links with
  | nil => intro q x h; exact Or.inl h
  | cons l ls ih =>
    intro q x h
    rw [enqueueAll] at h
    split at h
    · rcases ih _ x h with hq | hl
      · rcases List.mem_append.mp hq with h' | h'
        · exact Or.inl h'
        · simp only [List.mem_singleton] at h'
          exact Or.inr ⟨by simp [h'], by simp [h']⟩
      · exact Or.inr ⟨List.mem_cons_of_mem _ hl.1, hl.2⟩
    · rcases ih _ x h with hq | hl
      · exact Or.inl hq
      · exact Or.inr ⟨List.mem_cons_of_mem _ hl.1, hl.2⟩

/-- The string dedup only returns input elements. -/
theorem dedupStrGo_subset (seen : List String) :
    ∀ (l : List String) (s : String), s ∈ dedupStrGo seen l → s ∈ l := by
  intro l
  induction l generalizing seen with
  | nil => intro s h; simpa [dedupStrGo] using h
  | cons a rest ih =>
    intro s h
    rw [dedupStrGo] at h
    split at h
    · exact List.mem_cons_of_mem _ (ih seen s h)
    · rcases List.mem_cons.mp h with rfl | h'
      · exact List.mem_cons_self _ _
      · exact List.mem_cons_of_mem _ (ih _ s h')

/-- Every link the scrape boundary returns has the fetched page's netloc. -/
theorem scrapeModel_links_netloc {f : Fetcher} {url l : String}
    (h : l ∈ (scrapeModel f url).2) : urlNetloc l = urlNetloc url := by
  unfold scrapeModel at h
  split at h
  · simp at h
  · have hmem := dedupStrGo_subset [] _ _ h
    have := List.of_mem_filter hmem
    simpa using this

/-- Everything in the queue after processing a URL was already queued or is
a same-netloc link of the fetched page at depth `d + 1`. -/
theorem processUrl_queue_mem {f : Fetcher} {su : String} {md : Nat}
    {st : CrawlState} {cur : String} {d : Nat} {x : String × Nat}
    (hx : x ∈ (processUrl f su md st cur d).queue) :
    x ∈ st.queue ∨ (urlNetloc x.1 = urlNetloc cur ∧ x.2 = d + 1) := by
  simp only [processUrl] at hx
  split at hx <;> split at hx
  all_goals first
    | exact Or.inl hx
    | (rcases enqueueAll_mem su _ _ _ _ _ hx with hq | ⟨hl, hd⟩
       · exact Or.inl hq
       · exact Or.inr ⟨scrapeModel_links_netloc hl, hd⟩)

/-- The fixed fetch-failure marker starts with `"Error"`. -/
theorem errorPrefix_true (msg : String) :
    strStartsWithError ("Error fetching page: " ++ msg) = true := by
  unfold strStartsWithError
  rw [String.data_append]
  refine List.isPrefixOf_iff_prefix.mpr ?_
  refine List.IsPrefix.trans ⟨" fetching page: ".data, by decide⟩
    (List.prefix_append _ _)

/-- Depth bound preserved by the crawl loop: every recorded page was
recorded at a depth that passed the `depth > max_depth` skip. -/
theorem crawlLoop_depth_bound (f : Fetcher) (su : String) (md mp : Nat) :
    ∀ (fuel : Nat) (st : CrawlState),
      (∀ p ∈ st.pages_crawled, p.depth ≤ md) →
      ∀ p ∈ (crawlLoop f su md mp fuel st).pages_crawled, p.depth ≤ md := by
  intro fuel
  induction fuel with
  | zero => intro st h; simpa [crawlLoop] using h
  | succ n ih =>
    intro st h
    rw [crawlLoop]
    split
    · exact h
    · split
      · exact h
      · split
        · exact ih _ h
        · split
          · exact ih _ h
          · rename_i hd
            refine ih _ ?_
            intro q hq
            rcases processUrl_pages_mem hq with h1 | ⟨rfl, -⟩
            · exact h q h1
            · simpa using Nat.le_of_not_lt hd

/-- Page-budget bound preserved by the crawl loop. -/
theorem crawlLoop_budget (f : Fetcher) (su : String) (md mp : Nat) :
    ∀ (fuel : Nat) (st : CrawlState),
      st.pages_crawled.length ≤ mp →
      (crawlLoop f su md mp fuel st).pages_crawled.length ≤ mp := by
  intro fuel
  induction fuel with
  | zero => intro st h; simpa [crawlLoop] using h
  | succ n ih =>
    intro st h
    rw [crawlLoop]
    split
    · exact h
    · rename_i hguard
      split
      · exact h
      · split
        · exact ih _ h
        · split
          · exact ih _ h
          · refine ih _ (le_trans (processUrl_pages_len ..) ?_)
            exact Nat.succ_le_of_lt (Nat.lt_of_not_le hguard)

/-- With a zero page budget the loop is the identity. -/
theorem crawlLoop_zero_budget (f : Fetcher) (su : String) (md : Nat) :
    ∀ (fuel : Nat) (st : CrawlState), crawlLoop f su md 0 fuel st = st := by
  intro fuel st
  cases fuel with
  | zero => rfl
  | succ n => rw [crawlLoop]; simp

/-- The fetch trace stays duplicate-free and inside the visited set. -/
theorem crawlLoop_fetched_inv (f : Fetcher) (su : String) (md mp : Nat) :
    ∀ (fuel : Nat) (st : CrawlState),
      st.fetched.Nodup → (∀ u ∈ st.fetched, u ∈ st.visited) →
      ((crawlLoop f su md mp fuel st).fetched.Nodup ∧
        ∀ u ∈ (crawlLoop f su md mp fuel st).fetched,
          u ∈ (crawlLoop f su md mp fuel st).visited) := by
  intro fuel
  induction fuel with
  | zero => intro st h1 h2; rw [crawlLoop]; exact ⟨h1, h2⟩
  | succ n ih =>
    intro st h1 h2
    rw [crawlLoop]
    split
    · exact ⟨h1, h2⟩
    · split
      · exact ⟨h1, h2⟩
      · split
        · exact ih _ h1 h2
        · split
          · exact ih _ h1 h2
          · rename_i hvis hd
            refine ih _ ?_ ?_
            · rw [processUrl_fetched]
              refine List.Nodup.append h1 (List.nodup_singleton _) ?_
              intro a ha hb
              simp only [List.mem_singleton] at hb
              subst hb
              exact hvis ((containsStr_iff _ _).mpr (h2 _ ha))
            · intro u hu
              rw [processUrl_fetched] at hu
              rw [processUrl_visited]
              rcases List.mem_append.mp hu with h' | h'
              · exact List.mem_cons_of_mem _ (h2 u h')
              · simp only [List.mem_singleton] at h'
                simp [h']

/-- Every page the loop records passed the good-content check for its own
URL (the scrape is deterministic, so the check can be re-stated after the
fact). -/
theorem crawlLoop_pages_ok (f : Fetcher) (su : String) (md mp : Nat) :
    ∀ (fuel : Nat) (st : CrawlState),
      (∀ p ∈ st.pages_crawled, (scrapeModel f p.url).1 ≠ "" ∧
        strStartsWithError (scrapeModel f p.url).1 = false) →
      ∀ p ∈ (crawlLoop f su md mp fuel st).pages_crawled,
        (scrapeModel f p.url).1 ≠ "" ∧
          strStartsWithError (scrapeModel f p.url).1 = false := by
  intro fuel
  induction fuel with
  | zero => intro st h; simpa [crawlLoop] using h
  | succ n ih =>
    intro st h
    rw [crawlLoop]
    split
    · exact h
    · split
      · exact h
      · split
        · exact ih _ h
        · split
          · exact ih _ h
          · refine ih _ ?_
            intro q hq
            rcases processUrl_pages_mem hq with h1 | ⟨rfl, hok⟩
            · exact h q h1
            · simpa using hok

/-- When every fetch fails, the loop records no pages and no endpoints. -/
theorem crawlLoop_allfail (msg su : String) (md mp : Nat) :
    ∀ (fuel : Nat) (st : CrawlState),
      (crawlLoop (fun _ => FetchOutcome.fail msg) su md mp fuel st).pages_crawled
          = st.pages_crawled ∧
        (crawlLoop (fun _ => FetchOutcome.fail msg) su md mp fuel st).all_endpoints
          = st.all_endpoints := by
  intro fuel
  induction fuel with
  | zero => intro st; rw [crawlLoop]; exact ⟨rfl, rfl⟩
  | succ n ih =>
    intro st
    rw [crawlLoop]
    split
    · exact ⟨rfl, rfl⟩
    · split
      · exact ⟨rfl, rfl⟩
      · split
        · exact ih _
        · split
          · exact ih _
          · have hbadAll : ∀ u : String,
                ¬(((scrapeModel (fun _ => FetchOutcome.fail msg) u).1 ≠ "")
                  ∧ strStartsWithError
                      (scrapeModel (fun _ => FetchOutcome.fail msg) u).1 = false) := by
              intro u hcon
              have herr := errorPrefix_true msg
              simp only [scrapeModel] at hcon
              rw [herr] at hcon
              exact Bool.noConfusion hcon.2
            obtain ⟨hp, he, -⟩ := processUrl_bad (hbadAll _)
            exact ⟨((ih _).1).trans hp, ((ih _).2).trans he⟩

/-- Every queued and fetched URL has the seed's netloc: the scrape boundary
only returns links on the fetched page's own host, and the seed is the
first fetched page. -/
theorem crawlLoop_samehost (f : Fetcher) (su : String) (md mp : Nat) :
    ∀ (fuel : Nat) (st : CrawlState),
      (∀ q ∈ st.queue, urlNetloc q.1 = urlNetloc su) →
      (∀ u ∈ st.fetched, urlNetloc u = urlNetloc su) →
      ((∀ q ∈ (crawlLoop f su md mp fuel st).queue,
          urlNetloc q.1 = urlNetloc su) ∧
        ∀ u ∈ (crawlLoop f su md mp fuel st).fetched,
          urlNetloc u = urlNetloc su) := by
  intro fuel
  induction fuel with
  | zero => intro st h1 h2; rw [crawlLoop]; exact ⟨h1, h2⟩
  | succ n ih =>
    intro st h1 h2
    rw [crawlLoop]
    split
    · exact ⟨h1, h2⟩
    · split
      · exact ⟨h1, h2⟩
      · rename_i hque
        split
        · refine ih _ ?_ h2
          intro q hq
          exact h1 q (hque ▸ List.mem_cons_of_mem _ hq)
        · split
          · refine ih _ ?_ h2
            intro q hq
            exact h1 q (hque ▸ List.mem_cons_of_mem _ hq)
          · rename_i cur d rest hvis hd
            have hcur : urlNetloc cur = urlNetloc su :=
              h1 (cur, d) (hque ▸ List.mem_cons_self _ _)
            refine ih _ ?_ ?_
            · intro q hq
              rcases processUrl_queue_mem hq with h' | ⟨hn, -⟩
              · exact h1 q (hque ▸ List.mem_cons_of_mem _ h')
              · exact hn.trans hcur
            · intro u hu
              rw [processUrl_fetched] at hu
              rcases List.mem_append.mp hu with h' | h'
              · exact h2 u h'
              · simp only [List.mem_singleton] at h'
                exact h' ▸ hcur

/-- C3: every recorded PageResult has depth at most maxDepth, the number
of recorded PageResults never exceeds maxPages, and with maxPages = 0 the
crawl returns zero pages and zero endpoints without performing any
fetch. -/
theorem c3_depth_and_page_budget :
    (∀ (f : Fetcher) (su : String) (md mp fuel : Nat),
      (∀ p ∈ (crawl_documentation f su md mp fuel).pages_crawled,
        p.depth ≤ md) ∧
      (crawl_documentation f su md mp fuel).pages_crawled.length ≤ mp) ∧
    (∀ (f : Fetcher) (su : String) (md fuel : Nat),
      (crawl_documentation f su md 0 fuel).pages_crawled = [] ∧
      (crawl_documentation f su md 0 fuel).endpoints = [] ∧
      (crawl_documentation f su md 0 fuel).fetched = []) := by
  constructor
  · intro f su md mp fuel
    constructor
    · exact crawlLoop_depth_bound f su md mp fuel (initState su) (by simp [initState])
    · exact crawlLoop_budget f su md mp fuel (initState su) (by simp [initState])
  · intro f su md fuel
    simp [crawl_documentation, crawlLoop_zero_budget, initState, dedupGo]

/-- C3 witness: the theorem applied to a concrete single-page crawl and to
a concrete zero-budget crawl. -/
theorem c3_depth_and_page_budget_witness :
    (PageInfo.mk "http://a.com/" 0 5).depth ≤ 3 ∧
      (crawl_documentation (fun _ => FetchOutcome.ok "hello" []) "http://a.com/"
        3 20 5).pages_crawled.length ≤ 20 ∧
      (crawl_documentation (fun _ => FetchOutcome.ok "hello" []) "http://a.com/"
        3 0 5).pages_crawled = [] :=
  ⟨(c3_depth_and_page_budget.1 (fun _ => FetchOutcome.ok "hello" [])
      "http://a.com/" 3 20 5).1 _ (by decide),
    (c3_depth_and_page_budget.1 (fun _ => FetchOutcome.ok "hello" [])
      "http://a.com/" 3 20 5).2,
    (c3_depth_and_page_budget.2 (fun _ => FetchOutcome.ok "hello" [])
      "http://a.com/" 3 5).1⟩

/-- C4: within one crawl invocation a URL is never fetched twice (the
fetch trace is duplicate-free for every fetcher, seed and bound); and for a
page whose only same-domain link is itself, the frontier after processing
that page is empty and the whole crawl fetches exactly the seed once. -/
theorem c4_visited_never_refetched :
    (∀ (f : Fetcher) (su : String) (md mp fuel : Nat),
      (crawl_documentation f su md mp fuel).fetched.Nodup) ∧
    (crawlLoop (fun _ => FetchOutcome.ok "hello world" ["http://a.com/docs"])
        "http://a.com/docs" 3 20 1 (initState "http://a.com/docs")).queue = [] ∧
    (crawl_documentation
        (fun _ => FetchOutcome.ok "hello world" ["http://a.com/docs"])
        "http://a.com/docs" 3 20 10).fetched = ["http://a.com/docs"] := by
  refine ⟨?_, by decide, by decide⟩
  intro f su md mp fuel
  exact (crawlLoop_fetched_inv f su md mp fuel (initState su)
    (by simp [initState]) (by simp [initState])).1

/-- C5 counterexample: `crawl_documentation` itself performs no seed
validation and raises nothing — on the seed `"not-a-url"` it attempts a
fetch of that very string (the fetch trace is nonempty) and returns an
ordinary empty result; and the message `"not-a-url"` contains no
extractable URL, so `api_docs_node` answers with the no-URL response, not
with the invalid-URL one. -/
theorem c5_counterexample :
    (crawl_documentation (fun _ => FetchOutcome.fail "boom") "not-a-url"
        3 20 10).fetched = ["not-a-url"] ∧
      api_docs_decision "not-a-url" = NodeOutcome.noUrl :=
  ⟨by decide, by decide⟩

/-- C5 (amended): seed validation lives in `api_docs_node`: whenever the
URL extracted from the message lacks a scheme or a netloc, the node answers
with the invalid-URL response and no crawl (hence no fetch) is run. -/
theorem c5_invalid_url_amended :
    ∀ (message url : String),
      extract_url_from_message message = some url →
      (urlScheme url = "" ∨ urlNetloc url = "") →
      api_docs_decision message = NodeOutcome.invalidUrl url := by
  intro m u h1 h2
  unfold api_docs_decision
  rw [h1]
  exact if_pos h2

/-- C5 witness: a message whose extracted URL `http:///x` has an empty
netloc is answered with the invalid-URL response. -/
theorem c5_invalid_url_amended_witness :
    api_docs_decision "see http:///x please" = NodeOutcome.invalidUrl "http:///x" :=
  c5_invalid_url_amended "see http:///x please" "http:///x" (by decide)
    (by decide)

/-- C6: a single fetch failure is non-fatal: the fetcher returns the
explicit error marker with no links instead of raising; every recorded page
passed the good-content check (failed pages contribute no PageResult); and
a crawl in which every fetch fails returns an empty endpoint list and zero
pages rather than an error. -/
theorem c6_fetch_failure_nonfatal :
    (∀ (msg url : String),
      scrapeModel (fun _ => FetchOutcome.fail msg) url =
        ("Error fetching page: " ++ msg, [])) ∧
    (∀ (f : Fetcher) (su : String) (md mp fuel : Nat),
      ∀ p ∈ (crawl_documentation f su md mp fuel).pages_crawled,
        (scrapeModel f p.url).1 ≠ "" ∧
          strStartsWithError (scrapeModel f p.url).1 = false) ∧
    (∀ (msg su : String) (md mp fuel : Nat),
      (crawl_documentation (fun _ => FetchOutcome.fail msg) su md mp
          fuel).endpoints = [] ∧
        (crawl_documentation (fun _ => FetchOutcome.fail msg) su md mp
          fuel).pages_crawled = []) := by
  refine ⟨fun msg url => rfl, ?_, ?_⟩
  · intro f su md mp fuel
    exact crawlLoop_pages_ok f su md mp fuel (initState su) (by simp [initState])
  · intro msg su md mp fuel
    obtain ⟨hp, he⟩ := crawlLoop_allfail msg su md mp fuel (initState su)
    constructor
    · simp only [crawl_documentation]
      rw [he]
      rfl
    · simp only [crawl_documentation]
      rw [hp]
      rfl

/-- C6 witness: the theorem applied to a concrete failing message, to a
concrete successful crawl's recorded page, and to a concrete all-fail
crawl. -/
theorem c6_fetch_failure_nonfatal_witness :
    scrapeModel (fun _ => FetchOutcome.fail "boom") "http://a.com/" =
        ("Error fetching page: " ++ "boom", []) ∧
      ((scrapeModel (fun _ => FetchOutcome.ok "hello" [])
          (PageInfo.mk "http://a.com/" 0 5).url).1 ≠ "" ∧
        strStartsWithError
          ((scrapeModel (fun _ => FetchOutcome.ok "hello" [])
            (PageInfo.mk "http://a.com/" 0 5).url).1) = false) ∧
      (crawl_documentation (fun _ => FetchOutcome.fail "boom") "http://a.com/"
        3 20 5).endpoints = [] :=
  ⟨c6_fetch_failure_nonfatal.1 "boom" "http://a.com/",
    c6_fetch_failure_nonfatal.2.1 (fun _ => FetchOutcome.ok "hello" [])
      "http://a.com/" 3 20 5 _ (by decide),
    (c6_fetch_failure_nonfatal.2.2 "boom" "http://a.com/" 3 20 5).1⟩

/-- C7 counterexample (the claim is an existential; this is its negation):
no crawl input whatsoever makes the crawl fetch a URL whose netloc differs
from the seed's — the parser returns only links on the fetched page's own
host, so the keyword escape hatch never admits a cross-host link. -/
theorem c7_counterexample :
    ¬∃ (f : Fetcher) (su : String) (md mp fuel : Nat) (u : String),
        u ∈ (crawl_documentation f su md mp fuel).fetched ∧
          urlNetloc u ≠ urlNetloc su := by
  rintro ⟨f, su, md, mp, fuel, u, hu, hne⟩
  have := (crawlLoop_samehost f su md mp fuel (initState su)
    (by simp [initState]) (by simp [initState])).2 u hu
  exact hne this

/-- C7 (amended): the keyword disjunct exists in the enqueue filter, but
every URL the crawl ever enqueues or fetches has the seed's netloc, because
the scrape boundary drops links whose host differs from the fetched page's
host and the seed is the first page. -/
theorem c7_same_host_amended :
    ∀ (f : Fetcher) (su : String) (md mp fuel : Nat),
      (∀ u ∈ (crawl_documentation f su md mp fuel).fetched,
        urlNetloc u = urlNetloc su) ∧
      (∀ q ∈ (crawlLoop f su md mp fuel (initState su)).queue,
        urlNetloc q.1 = urlNetloc su) := by
  intro f su md mp fuel
  obtain ⟨hq, hf⟩ := crawlLoop_samehost f su md mp fuel (initState su)
    (by simp [initState]) (by simp [initState])
  exact ⟨hf, hq⟩

/-- C7 witness: the amended theorem applied to a concrete crawl whose page
links to a keyword-bearing same-host URL. -/
theorem c7_same_host_amended_witness :
    urlNetloc "http://a.com/docs" = urlNetloc "http://a.com/" :=
  (c7_same_host_amended
      (fun _ => FetchOutcome.ok "hi" ["http://a.com/docs"])
      "http://a.com/" 3 20 10).1 "http://a.com/docs" (by decide)

/-- The generic fallback description is never empty: it always contains the
literal text `the resource.`. -/
theorem genericDesc_ne (method path : String) (params : List String) :
    genericDesc method path params ≠ "" := by
  unfold genericDesc
  intro hcon
  have hdata : stripL (method.data ++ [' '] ++ path.data ++ [' '] ++
      (methodAction method).data ++ " the resource. ".data ++
      (paramHint params).data) = [] := congrArg String.data hcon
  have hr : 'r' ∈ (" the resource. ".data : List Char) := by decide
  have hmem : 'r' ∈ (method.data ++ [' '] ++ path.data ++ [' '] ++
      (methodAction method).data ++ " the resource. ".data ++
      (paramHint params).data) := by
    simp only [List.mem_append]
    tauto
  have := stripL_eq_nil hdata 'r' hmem
  simp [isSpaceChar] at this

/-- The synthesizer never returns an empty description: a found snippet is
nonempty by construction, and the fallback is the generic template. -/
theorem analyzeOne_description_ne (corpus : List Char) (ep : Endpoint) :
    (analyzeOne corpus ep).description ≠ "" := by
  have h : ∀ (d1 : List Char) (g : String), g ≠ "" →
      (if d1.isEmpty then g else String.mk d1) ≠ "" := by
    intro d1 g hg
    split
    · exact hg
    · rename_i hne
      intro hcon
      have hd : d1 = [] := congrArg String.data hcon
      simp [hd] at hne
  exact h _ _ (genericDesc_ne _ _ _)

set_option maxRecDepth 8000 in
/-- C9 counterexample: an endpoint whose 300-character path does not occur
in the corpus gets the untruncated generic fallback description, which is
328 characters long — no 280-character cap and no ellipsis marker. -/
theorem c9_counterexample :
    ((analyze_endpoints
        [Endpoint.mk "GET" (String.mk ('/' :: List.replicate 299 'a')) "u" "s"]
        "").map (fun a => a.description.length)).headD 0 = 328 ∧ 280 < 328 :=
  ⟨by decide, by decide⟩

/-- C9 (amended): every description synthesized from a corpus snippet is at
most 280 characters (truncated to 277 characters plus an ellipsis when
longer); the only descriptions that may exceed 280 characters are the
generic template fallbacks, which the source does not length-cap. -/
theorem c9_description_bounded :
    ∀ (endpoints : List Endpoint) (corpus : String) (a : Analysis),
      a ∈ analyze_endpoints endpoints corpus →
      a.description.length ≤ 280 ∨
        a.description = genericDesc a.method a.path a.params := by
  have hlen : ∀ d0 : List Char,
      (if d0.isEmpty then ([] : List Char) else
        if (stripL (squeezeWs d0)).length > 280 then
          (stripL (squeezeWs d0)).take 277 ++ "...".data
        else stripL (squeezeWs d0)).length ≤ 280 := by
    intro d0
    split
    · simp
    · split
      · rw [List.length_append, List.length_take]
        have h1 := Nat.min_le_left 277 (stripL (squeezeWs d0)).length
        have h2 : "...".data.length = 3 := by decide
        omega
      · rename_i hshort
        omega
  have key : ∀ (d1 : List Char) (g : String), d1.length ≤ 280 →
      (if d1.isEmpty then g else String.mk d1).length ≤ 280 ∨
        (if d1.isEmpty then g else String.mk d1) = g := by
    intro d1 g hd1
    split
    · exact Or.inr rfl
    · exact Or.inl (by simpa [String.length_mk] using hd1)
  intro eps corpus a ha
  obtain ⟨ep, hep, rfl⟩ := List.mem_map.mp ha
  exact key _ _ (hlen _)

/-- C9 witness: the amended theorem applied to a concrete endpoint whose
path occurs in a long corpus (truncated branch). -/
theorem c9_description_bounded_witness :
    ((analyzeOne (String.mk ("/zz ".data ++ List.replicate 600 'x')).data
        (Endpoint.mk "GET" "/zz" "u" "s")).description.length ≤ 280 ∨
      (analyzeOne (String.mk ("/zz ".data ++ List.replicate 600 'x')).data
        (Endpoint.mk "GET" "/zz" "u" "s")).description =
        genericDesc
          (analyzeOne (String.mk ("/zz ".data ++ List.replicate 600 'x')).data
            (Endpoint.mk "GET" "/zz" "u" "s")).method
          (analyzeOne (String.mk ("/zz ".data ++ List.replicate 600 'x')).data
            (Endpoint.mk "GET" "/zz" "u" "s")).path
          (analyzeOne (String.mk ("/zz ".data ++ List.replicate 600 'x')).data
            (Endpoint.mk "GET" "/zz" "u" "s")).params) :=
  c9_description_bounded [Endpoint.mk "GET" "/zz" "u" "s"]
    (String.mk ("/zz ".data ++ List.replicate 600 'x')) _
    (List.mem_map.mpr ⟨Endpoint.mk "GET" "/zz" "u" "s", by decide, rfl⟩)

/-- C10: `analyze_endpoints` returns exactly one analysis per input
endpoint, in input order, and each analysis carries its endpoint's method,
path and full_url unchanged, with a non-empty description. -/
theorem c10_analysis_frame :
    ∀ (endpoints : List Endpoint) (corpus : String),
      (analyze_endpoints endpoints corpus).length = endpoints.length ∧
      ∀ (i : Fin endpoints.length)
        (h2 : (i : Nat) < (analyze_endpoints endpoints corpus).length),
        ((analyze_endpoints endpoints corpus).get ⟨i, h2⟩).method =
            (endpoints.get i).method ∧
          ((analyze_endpoints endpoints corpus).get ⟨i, h2⟩).path =
            (endpoints.get i).path ∧
          ((analyze_endpoints endpoints corpus).get ⟨i, h2⟩).full_url =
            (endpoints.get i).full_url ∧
          ((analyze_endpoints endpoints corpus).get ⟨i, h2⟩).description ≠ "" := by
  intro eps corpus
  refine ⟨List.length_map _ _, ?_⟩
  intro i h2
  have hget : (analyze_endpoints eps corpus).get ⟨i, h2⟩ =
      analyzeOne corpus.data (eps.get i) := by
    simp [analyze_endpoints, List.get_eq_getElem, List.getElem_map]
  rw [hget]
  exact ⟨rfl, rfl, rfl, analyzeOne_description_ne _ _⟩

/-- C10 witness: the theorem applied to a concrete one-endpoint list. -/
theorem c10_analysis_frame_witness :
    (analyze_endpoints [Endpoint.mk "GET" "/a" "u" "s"] "").length = 1 ∧
      ∃ h2 : (0 : Nat) <
          (analyze_endpoints [Endpoint.mk "GET" "/a" "u" "s"] "").length,
        ((analyze_endpoints [Endpoint.mk "GET" "/a" "u" "s"] "").get
            ⟨0, h2⟩).method = "GET" ∧
          ((analyze_endpoints [Endpoint.mk "GET" "/a" "u" "s"] "").get
            ⟨0, h2⟩).description ≠ "" := by
  obtain ⟨hlen, hfields⟩ :=
    c10_analysis_frame [Endpoint.mk "GET" "/a" "u" "s"] ""
  have h2 : (0 : Nat) <
      (analyze_endpoints [Endpoint.mk "GET" "/a" "u" "s"] "").length := by
    rw [hlen]; decide
  obtain ⟨hm, hp, hu, hd⟩ := hfields ⟨0, by decide⟩ h2
  exact ⟨hlen.trans rfl, h2, hm, hd⟩

end CaseAdapta
